import Mathlib

/-!
Verification of the predictive-state estimation pipeline demonstrated in
`predstate.ipynb` (ruckus-tutorials).

The notebook wires library components (ruckus `ConvolutionalRKHS` /
`OneHotRKHS` / `ProductRKHS`, sklearn `LinearRegression` / `GridSearchCV`,
scipy `svd` / `inv`) around a handful of formulas written out in the
notebook cells themselves:

* `joint_counts = past_vecs.T @ fut_vecs`
* `p_counts = joint_counts.sum(axis=1)`;
  `morphs = np.diag(p_counts ** (-1)) @ joint_counts`
* `past_squared = past_vecs.T @ past_vecs`;
  `new_morphs = inv(past_squared) @ joint_counts`
* `SVDRegressor.fit`:
  `U, s, VT = svd(coef.T)`;
  `bottleneck_ = U[:, :k] @ np.diag(s[:k]) @ VT[:k]`;
  `predict(X) = X @ bottleneck_`

These formulas are embedded below over `ℚ` (exact arithmetic standing in
for IEEE floats: the claims are all stated up to floating-point
tolerance, and exact equality over `ℚ` is the tolerance-free version of
each identity).  Library behaviour that the repository only calls but
does not contain (window extraction, one-hot encoding, k-fold
cross-validation, the least-squares solver) is modelled from the spec,
with each such definition marked `Modelled from the spec:` in its doc
comment.
-/

/-! ## Windower (spec-modelled: performed by `ruckus.convolution.ConvolutionalRKHS`
with `window_shape = (2 * L + 1,)`, which is configured but not defined in this
repository) -/

/-- Error raised when the sequence is too short for even one window. -/
inductive WindowError where
  | invalidWindow
  deriving DecidableEq, Repr

/-- Modelled from the spec: the Windower.  Given a sequence of length `N` and
half-window length `L`, slide a window of length `2 * L + 1` with unit stride
and no padding, producing the windows at offsets `0 .. N - 2 * L - 1`; fail
with `InvalidWindowError` when `N ≤ 2 * L`. -/
def windower {α : Type _} (xs : List α) (L : ℕ) :
    Except WindowError (List (List α)) :=
  if xs.length ≤ 2 * L then .error .invalidWindow
  else .ok ((List.range (xs.length - 2 * L)).map
    fun t => (xs.drop t).take (2 * L + 1))

/-- Modelled from the spec: the Past segment of a window, its first `L + 1`
symbols (the past one-hot block takes indices `np.arange(L + 1)`). -/
def pastOf {α : Type _} (L : ℕ) (w : List α) : List α := w.take (L + 1)

/-- Modelled from the spec: the Future segment of a window, its last `L`
symbols (the future one-hot block takes indices `np.arange(L + 1, 2 * L + 1)`). -/
def futureOf {α : Type _} (L : ℕ) (w : List α) : List α := w.drop (L + 1)

/-! ## CategoricalOneHotEncoder (spec-modelled: performed by `ruckus.OneHotRKHS`,
which is configured and called but not defined in this repository) -/

section Encoder

variable {W : Type _} [DecidableEq W]

/-- Modelled from the spec: `OneHotRKHS.fit` discovers the set of distinct
sub-words in first-seen order and freezes it as the alphabet. -/
def fitAlphabet (ws : List W) : List W :=
  ws.foldl (fun acc x => if x ∈ acc then acc else acc ++ [x]) []

/-- Modelled from the spec: `OneHotRKHS.transform` maps each sub-word to a
one-hot indicator row against the frozen alphabet (one row per window, one
column per alphabet entry). -/
def oneHotTransform (alphabet ws : List W) : List (List ℚ) :=
  ws.map fun w => alphabet.map fun a => if w = a then (1 : ℚ) else 0

/-- Entry `(t, j)` of the transformed feature matrix, with 0 out of range. -/
def oneHotEntry (alphabet ws : List W) (t j : ℕ) : ℚ :=
  ((oneHotTransform alphabet ws).getD t []).getD j 0

end Encoder

/-! ## ConditionalEstimator: count formulas of the notebook cells

`joint_counts = past_vecs.T @ fut_vecs`,
`p_counts = joint_counts.sum(axis=1)`,
`morphs = np.diag(p_counts ** (-1)) @ joint_counts`,
`past_squared = past_vecs.T @ past_vecs`,
`new_morphs = inv(past_squared) @ joint_counts`. -/

section Conditional

variable {m p f : ℕ}

/-- Joint co-occurrence counts, notebook formula `past_vecs.T @ fut_vecs`. -/
def jointCounts (P : Matrix (Fin m) (Fin p) ℚ) (F : Matrix (Fin m) (Fin f) ℚ) :
    Matrix (Fin p) (Fin f) ℚ :=
  P.transpose * F

/-- Per-past-word marginal counts, notebook formula
`p_counts = joint_counts.sum(axis=1)`. -/
def pCounts (P : Matrix (Fin m) (Fin p) ℚ) (F : Matrix (Fin m) (Fin f) ℚ)
    (i : Fin p) : ℚ :=
  ∑ j, jointCounts P F i j

/-- Conditional probability table, notebook formula
`morphs = np.diag(p_counts ** (-1)) @ joint_counts` (elementwise reciprocal
of the marginal counts on the diagonal). -/
def morphs (P : Matrix (Fin m) (Fin p) ℚ) (F : Matrix (Fin m) (Fin f) ℚ) :
    Matrix (Fin p) (Fin f) ℚ :=
  Matrix.diagonal (fun i => (pCounts P F i)⁻¹) * jointCounts P F

/-- Marginal count matrix, notebook formula
`past_squared = past_vecs.T @ past_vecs`. -/
def pastSquared (P : Matrix (Fin m) (Fin p) ℚ) : Matrix (Fin p) (Fin p) ℚ :=
  P.transpose * P

/-- Matrix inverse as `scipy.linalg.inv` behaves: on a singular input it
raises `LinAlgError` (modelled as `none`), otherwise it returns the inverse
(`det⁻¹ • adjugate`). -/
def scipyInv (A : Matrix (Fin p) (Fin p) ℚ) :
    Option (Matrix (Fin p) (Fin p) ℚ) :=
  if A.det = 0 then none else some ((A.det)⁻¹ • A.adjugate)

/-- Closed-form coefficient matrix, notebook formula
`new_morphs = inv(past_squared) @ joint_counts`;  `none` models the
`LinAlgError` raised by `inv` on a singular marginal matrix. -/
def newMorphs (P : Matrix (Fin m) (Fin p) ℚ) (F : Matrix (Fin m) (Fin f) ℚ) :
    Option (Matrix (Fin p) (Fin f) ℚ) :=
  (scipyInv (pastSquared P)).map fun M => M * jointCounts P F

/-- Predicate: a feature row is one-hot (a single 1, all other entries 0). -/
def OneHotRow {n : ℕ} (r : Fin n → ℚ) : Prop :=
  ∃ j, ∀ j2, r j2 = if j2 = j then 1 else 0

/-- Predicate: every row of a feature matrix is one-hot. -/
def OneHotRows {n : ℕ} (M : Matrix (Fin m) (Fin n) ℚ) : Prop :=
  ∀ t, OneHotRow (M t)

instance {n : ℕ} (r : Fin n → ℚ) : Decidable (OneHotRow r) := by
  unfold OneHotRow; infer_instance

instance {n : ℕ} (M : Matrix (Fin m) (Fin n) ℚ) : Decidable (OneHotRows M) := by
  unfold OneHotRows; infer_instance

end Conditional

/-! ## Closed form versus least squares (C1)

The generic-regression route is `sklearn.linear_model.LinearRegression` with
`fit_intercept = False`, called but not defined in this repository; it is
modelled from the spec as the minimiser of the no-intercept least-squares
objective `argmin_B ||ΦF − ΦP·B||^2`. -/

section LeastSquares

variable {m p f : ℕ}

/-- Modelled from the spec: squared Frobenius norm of a matrix. -/
def frobSq {a b : ℕ} (M : Matrix (Fin a) (Fin b) ℚ) : ℚ :=
  ∑ i, ∑ j, (M i j) ^ 2

/-- Modelled from the spec: the no-intercept least-squares objective
`||ΦF − ΦP·B||^2` minimised by `LinearRegression(fit_intercept=False)`. -/
def lsqLoss (P : Matrix (Fin m) (Fin p) ℚ) (F : Matrix (Fin m) (Fin f) ℚ)
    (B : Matrix (Fin p) (Fin f) ℚ) : ℚ :=
  frobSq (F - P * B)

/-- Modelled from the spec: `B` is a coefficient matrix produced by the
no-intercept least-squares route, i.e. a minimiser of the objective. -/
def IsLSQMin (P : Matrix (Fin m) (Fin p) ℚ) (F : Matrix (Fin m) (Fin f) ℚ)
    (B : Matrix (Fin p) (Fin f) ℚ) : Prop :=
  ∀ B2, lsqLoss P F B ≤ lsqLoss P F B2

/-- Closed-form value of the coefficient matrix: entry `(i, j)` divides the
joint count by the marginal count of past word `i`. -/
def closedFormB (P : Matrix (Fin m) (Fin p) ℚ) (F : Matrix (Fin m) (Fin f) ℚ) :
    Matrix (Fin p) (Fin f) ℚ :=
  Matrix.of fun i j => (∑ t, P t i)⁻¹ * jointCounts P F i j

end LeastSquares

/-! ## Singular marginals and their reachability (C7) -/

section SingularMarginal

variable {W : Type _} [DecidableEq W]

/-- Matrix form of `oneHotTransform`: one row per window, one column per
alphabet entry, entry 1 exactly when the sub-word of that window is that
alphabet entry. -/
def featureMatrix (alphabet ws : List W) :
    Matrix (Fin ws.length) (Fin alphabet.length) ℚ :=
  Matrix.of fun t j => if ws.get t = alphabet.get j then 1 else 0

end SingularMarginal

/-! ## RankBottleneck: SVD truncation (C4)

Notebook source: `U, s, VT = svd(...)`;
`bottleneck_ = U[:, :self.n_components] @ np.diag(s[:self.n_components])
@ (VT[:self.n_components])`. -/

section SVD

variable {p f : ℕ}

/-- Truncated-SVD reconstruction exactly as the notebook slices it, for an
in-range rank `k ≤ min p f`:
`U[:, :k] @ np.diag(s[:k]) @ VT[:k]`. -/
def svdTruncSlice (U : Matrix (Fin p) (Fin p) ℚ) (s : Fin (min p f) → ℚ)
    (VT : Matrix (Fin f) (Fin f) ℚ) (k : ℕ) (hk : k ≤ min p f) :
    Matrix (Fin p) (Fin f) ℚ :=
  (U.submatrix id fun l : Fin k => Fin.castLE (hk.trans (min_le_left p f)) l)
    * Matrix.diagonal (fun l : Fin k => s (Fin.castLE hk l))
    * (VT.submatrix (fun l : Fin k => Fin.castLE (hk.trans (min_le_right p f)) l) id)

/-- The singular-value vector of a truncation: the first `k` values survive,
the rest are zeroed. -/
def truncSigma (s : Fin (min p f) → ℚ) (k : ℕ) : Fin (min p f) → ℚ :=
  fun l => if (l : ℕ) < k then s l else 0

/-- Predicate: `(U, s, VT)` is a singular value decomposition of `A` —
orthogonal factors, non-negative singular values in non-increasing order,
and `A` is the full reconstruction. -/
def IsSVD (A : Matrix (Fin p) (Fin f) ℚ) (U : Matrix (Fin p) (Fin p) ℚ)
    (s : Fin (min p f) → ℚ) (VT : Matrix (Fin f) (Fin f) ℚ) : Prop :=
  U.transpose * U = 1 ∧ VT * VT.transpose = 1 ∧
  (∀ l, 0 ≤ s l) ∧ (∀ l l2, l ≤ l2 → s l2 ≤ s l) ∧
  A = svdTruncSlice U s VT (min p f) (le_refl _)

end SVD

/-! ## SVDRegressor at numpy level (C5, C10)

The notebook's `SVDRegressor.fit` performs no rank validation: it slices,
`U[:, :k] @ np.diag(s[:k]) @ VT[:k]`, with numpy semantics — slices clamp to
the available extent and `@` raises on an inner-dimension mismatch.  The
model carries explicit shapes to capture exactly that behaviour. -/

section NumpyModel

/-- A shaped numpy array: dimensions plus an entry function (entries outside
the shape are irrelevant). -/
structure NpMat where
  rows : ℕ
  cols : ℕ
  entry : ℕ → ℕ → ℚ

/-- Finite sum `g 0 + (g 1 + (... + 0))`, kept kernel-reducible. -/
def natSum (n : ℕ) (g : ℕ → ℚ) : ℚ :=
  (List.range n).foldr (fun i acc => g i + acc) 0

/-- Column slice `M[:, :k]`, clamping at the array width as numpy does. -/
def npColSlice (M : NpMat) (k : ℕ) : NpMat :=
  ⟨M.rows, min k M.cols, M.entry⟩

/-- Row slice `M[:k]`, clamping at the array height as numpy does. -/
def npRowSlice (M : NpMat) (k : ℕ) : NpMat :=
  ⟨min k M.rows, M.cols, M.entry⟩

/-- `np.diag(v)` on a 1-D array of length `n`. -/
def npDiag (n : ℕ) (v : ℕ → ℚ) : NpMat :=
  ⟨n, n, fun i j => if i = j then v i else 0⟩

/-- Matrix product `A @ B`: numpy raises `ValueError` (modelled as `none`)
unless the inner dimensions agree. -/
def npMatmul (A B : NpMat) : Option NpMat :=
  if A.cols = B.rows then
    some ⟨A.rows, B.cols, fun i j => natSum A.cols fun l => A.entry i l * B.entry l j⟩
  else none

/-- The `SVDRegressor.fit` bottleneck line,
`self.bottleneck_ = U[:, :k] @ np.diag(s[:k]) @ (VT[:k])`, where the 1-D
singular-value array `s` has length `sLen` and values `sv`. -/
def npBottleneck (U : NpMat) (sLen : ℕ) (sv : ℕ → ℚ) (VT : NpMat) (k : ℕ) :
    Option NpMat :=
  (npMatmul (npColSlice U k) (npDiag (min k sLen) sv)).bind fun M =>
    npMatmul M (npRowSlice VT k)

/-- `SVDRegressor.predict`: `X @ self.bottleneck_`. -/
def npPredict (X B : NpMat) : Option NpMat :=
  npMatmul X B

end NumpyModel

/-! ## CrossValidatedRankSelector (C9)

Spec-modelled: performed by `sklearn.model_selection.GridSearchCV` with
`cv = 5` over the `ConditionalMapWrapper`, none of which is defined in this
repository.  Standard k-fold splitting partitions the row indices into `F`
contiguous blocks, the first `n % F` of size `n / F + 1` and the rest of
size `n / F`. -/

section CrossValidation

/-- Sum of a list of rationals. -/
def listSum (xs : List ℚ) : ℚ := xs.foldr (fun a b => a + b) 0

/-- Modelled from the spec: size of held-out fold `i` in standard k-fold
splitting of `n` rows into `F` folds. -/
def foldSize (n F i : ℕ) : ℕ := n / F + if i < n % F then 1 else 0

/-- Modelled from the spec: first row index of held-out fold `i`. -/
def foldStart (n F i : ℕ) : ℕ := i * (n / F) + min i (n % F)

/-- Modelled from the spec: the row indices held out in fold `i`. -/
def foldTestIdx (n F i : ℕ) : List ℕ :=
  (List.range n).filter fun r =>
    foldStart n F i ≤ r ∧ r < foldStart n F i + foldSize n F i

/-- Modelled from the spec: the row indices used for training in fold `i`. -/
def foldTrainIdx (n F i : ℕ) : List ℕ :=
  (List.range n).filter fun r =>
    ¬ (foldStart n F i ≤ r ∧ r < foldStart n F i + foldSize n F i)

/-- The listed rows of a feature matrix. -/
def gatherRows (M : ℕ → ℕ → ℚ) (idx : List ℕ) : List (ℕ → ℚ) :=
  idx.map fun t => M t

/-- Modelled from the spec: the loss of fold `i` — fit the estimator plus
bottleneck on the training rows only, then take the mean squared error
between the held-out ΦF rows and the held-out ΦP rows times the bottleneck.
The fitted pipeline is abstracted as `fit` (for rank `k` it is
`SVDRegressor(n_components = k)` on the notebook side). -/
def cvFoldLoss (p f n F : ℕ) (P Fm : ℕ → ℕ → ℚ)
    (fit : List (ℕ → ℚ) → List (ℕ → ℚ) → (ℕ → ℕ → ℚ)) (i : ℕ) : ℚ :=
  let B := fit (gatherRows P (foldTrainIdx n F i))
    (gatherRows Fm (foldTrainIdx n F i))
  let test := foldTestIdx n F i
  listSum (test.map fun t => natSum f fun j =>
      (Fm t j - natSum p fun c => P t c * B c j) ^ 2)
    / ((test.length * f : ℕ) : ℚ)

/-- Modelled from the spec: the list of per-fold losses. -/
def cvLosses (p f n F : ℕ) (P Fm : ℕ → ℕ → ℚ)
    (fit : List (ℕ → ℚ) → List (ℕ → ℚ) → (ℕ → ℕ → ℚ)) : List ℚ :=
  (List.range F).map (cvFoldLoss p f n F P Fm fit)

/-- Mean of a list of losses. -/
def cvMean (xs : List ℚ) : ℚ := listSum xs / (xs.length : ℚ)

/-- Population variance of a list of losses; the standard deviation reported
in a CVResult is its square root. -/
def cvVar (xs : List ℚ) : ℚ :=
  listSum (xs.map fun x => (x - cvMean xs) ^ 2) / (xs.length : ℚ)

end CrossValidation

/-! ## Theorems -/

/-- C2: for a sequence of length `N` and `L ≥ 1` with `N > 2 * L`, the Windower
produces exactly `N - 2 * L` windows; window `t` is the contiguous slice of the
input at offset `t` of length `2 * L + 1`; its Past is its first `L + 1`
symbols and its Future is the remaining `L` symbols, and the two segments
reassemble the window. -/
theorem windower_spec {α : Type _} (xs : List α) (L : ℕ)
    (hL : 1 ≤ L) (hN : 2 * L < xs.length) :
    ∃ ws, windower xs L = .ok ws ∧
      ws.length = xs.length - 2 * L ∧
      ∀ t (ht : t < ws.length),
        ws.get ⟨t, ht⟩ = (xs.drop t).take (2 * L + 1) ∧
        (ws.get ⟨t, ht⟩).length = 2 * L + 1 ∧
        (pastOf L (ws.get ⟨t, ht⟩)).length = L + 1 ∧
        (futureOf L (ws.get ⟨t, ht⟩)).length = L ∧
        pastOf L (ws.get ⟨t, ht⟩) ++ futureOf L (ws.get ⟨t, ht⟩)
          = ws.get ⟨t, ht⟩ := by
  refine ⟨(List.range (xs.length - 2 * L)).map
    fun t => (xs.drop t).take (2 * L + 1), ?_, ?_, ?_⟩
  · simp [windower, Nat.not_le.mpr hN]
  · simp
  · intro t ht
    have hlen : ((List.range (xs.length - 2 * L)).map
        fun t => (xs.drop t).take (2 * L + 1)).length = xs.length - 2 * L := by
      simp
    have htlt : t < xs.length - 2 * L := by
      simpa [hlen] using ht
    have hget : ((List.range (xs.length - 2 * L)).map
        fun t => (xs.drop t).take (2 * L + 1)).get ⟨t, ht⟩
        = (xs.drop t).take (2 * L + 1) := by
      simp
    have hdroplen : (xs.drop t).length = xs.length - t := by simp
    have hfit : 2 * L + 1 ≤ xs.length - t := by omega
    have hwinlen : ((xs.drop t).take (2 * L + 1)).length = 2 * L + 1 := by
      simp [hdroplen]
      omega
    refine ⟨hget, by rw [hget]; exact hwinlen, ?_, ?_, ?_⟩
    · rw [hget]
      simp only [pastOf, List.length_take, hwinlen]
      omega
    · rw [hget]
      simp only [futureOf, List.length_drop, hwinlen]
      omega
    · rw [hget]
      exact List.take_append_drop (L + 1) _

/-- C6: for a sequence of length `N` and `L ≥ 1` with `N ≤ 2 * L`, the
Windower fails with `InvalidWindowError` and produces no windows. -/
theorem windower_short_fails {α : Type _} (xs : List α) (L : ℕ)
    (hL : 1 ≤ L) (hN : xs.length ≤ 2 * L) :
    windower xs L = .error .invalidWindow := by
  simp [windower, hN]

/-- Witness for C2 at the concrete sequence `[0, 1, 0, 1, 1]` with `L = 1`:
the hypotheses hold and the conclusion is realised. -/
theorem windower_spec_witness :
    ∃ ws, windower [0, 1, 0, 1, 1] 1 = .ok ws ∧
      ws.length = 3 ∧
      ∀ t (ht : t < ws.length),
        ws.get ⟨t, ht⟩ = (([0, 1, 0, 1, 1].drop t).take 3) ∧
        (ws.get ⟨t, ht⟩).length = 3 ∧
        (pastOf 1 (ws.get ⟨t, ht⟩)).length = 2 ∧
        (futureOf 1 (ws.get ⟨t, ht⟩)).length = 1 ∧
        pastOf 1 (ws.get ⟨t, ht⟩) ++ futureOf 1 (ws.get ⟨t, ht⟩)
          = ws.get ⟨t, ht⟩ := by
  have h := windower_spec ([0, 1, 0, 1, 1] : List ℕ) 1 (by decide) (by decide)
  simpa using h

/-- Witness for C6 at the concrete failing scenario of the spec: a sequence of
length 5 with `L = 3` (so `2 * L = 6 > 5`). -/
theorem windower_short_fails_witness :
    windower [0, 1, 0, 1, 1] 3 = .error .invalidWindow :=
  windower_short_fails ([0, 1, 0, 1, 1] : List ℕ) 3 (by decide) (by decide)

section EncoderThms

variable {W : Type _} [DecidableEq W]

theorem fitAlphabet_aux_nodup (ws acc : List W) (h : acc.Nodup) :
    (ws.foldl (fun acc x => if x ∈ acc then acc else acc ++ [x]) acc).Nodup := by
  induction ws generalizing acc with
  | nil => simpa using h
  | cons x ws ih =>
      simp only [List.foldl_cons]
      by_cases hx : x ∈ acc
      · simpa [hx] using ih acc h
      · have : (acc ++ [x]).Nodup := by
          simp [List.nodup_append, h, hx]
        simpa [hx] using ih (acc ++ [x]) this

theorem fitAlphabet_aux_mem (ws acc : List W) (a : W) :
    a ∈ ws.foldl (fun acc x => if x ∈ acc then acc else acc ++ [x]) acc ↔
      a ∈ acc ∨ a ∈ ws := by
  induction ws generalizing acc with
  | nil => simp
  | cons x ws ih =>
      simp only [List.foldl_cons]
      by_cases hx : x ∈ acc
      · rw [if_pos hx, ih]
        constructor
        · rintro (h | h)
          · exact Or.inl h
          · exact Or.inr (List.mem_cons_of_mem x h)
        · rintro (h | h)
          · exact Or.inl h
          · rcases List.mem_cons.mp h with rfl | h
            · exact Or.inl hx
            · exact Or.inr h
      · rw [if_neg hx, ih]
        simp only [List.mem_append, List.mem_singleton, List.mem_cons]
        tauto

/-- Fitted alphabets have no duplicate entries. -/
theorem fitAlphabet_nodup (ws : List W) : (fitAlphabet ws).Nodup :=
  fitAlphabet_aux_nodup ws [] List.nodup_nil

/-- Fitted alphabets contain exactly the sub-words observed at fit time. -/
theorem fitAlphabet_mem (ws : List W) (a : W) :
    a ∈ fitAlphabet ws ↔ a ∈ ws := by
  simpa using fitAlphabet_aux_mem ws [] a

/-- C8: for an alphabet fitted on `ds` and sub-words `ws` drawn from that
alphabet, the transform output has one row per window and one column per
alphabet entry, and row `t` is an exact indicator vector: a single 1 at the
column of the sub-word observed in window `t` and 0 at every other column. -/
theorem oneHotTransform_spec (ds ws : List W)
    (hmem : ∀ w ∈ ws, w ∈ fitAlphabet ds) :
    (oneHotTransform (fitAlphabet ds) ws).length = ws.length ∧
    (∀ row ∈ oneHotTransform (fitAlphabet ds) ws,
      row.length = (fitAlphabet ds).length) ∧
    ∀ t (ht : t < ws.length), ∃ j, ∃ hj : j < (fitAlphabet ds).length,
      (fitAlphabet ds).get ⟨j, hj⟩ = ws.get ⟨t, ht⟩ ∧
      ∀ j2, j2 < (fitAlphabet ds).length →
        oneHotEntry (fitAlphabet ds) ws t j2 = if j2 = j then 1 else 0 := by
  set A := fitAlphabet ds with hA
  refine ⟨by simp [oneHotTransform], ?_, ?_⟩
  · intro row hrow
    rcases List.mem_map.mp hrow with ⟨w, _, rfl⟩
    simp
  · intro t ht
    have hwmem : ws.get ⟨t, ht⟩ ∈ A := hmem _ (ws.get_mem _ _)
    refine ⟨List.indexOf (ws.get ⟨t, ht⟩) A,
      List.indexOf_lt_length.mpr hwmem, List.indexOf_get _, ?_⟩
    intro j2 hj2
    have hnodup : A.Nodup := by rw [hA]; exact fitAlphabet_nodup ds
    have htm : t < (oneHotTransform A ws).length := by
      simpa [oneHotTransform] using ht
    have hrow : (oneHotTransform A ws).getD t []
        = A.map fun a => if ws.get ⟨t, ht⟩ = a then (1 : ℚ) else 0 := by
      rw [List.getD_eq_getElem _ _ htm]
      simp [oneHotTransform, List.get_eq_getElem]
    have hj2m : j2 < (A.map fun a =>
        if ws.get ⟨t, ht⟩ = a then (1 : ℚ) else 0).length := by
      simpa using hj2
    rw [oneHotEntry, hrow, List.getD_eq_getElem _ _ hj2m, List.getElem_map]
    by_cases hcase : j2 = List.indexOf (ws.get ⟨t, ht⟩) A
    · subst hcase
      have hhit : A[List.indexOf (ws.get ⟨t, ht⟩) A]
          = ws.get ⟨t, ht⟩ :=
        List.getElem_indexOf (List.indexOf_lt_length.mpr hwmem)
      simp [hhit]
    · have hne : ¬ ws.get ⟨t, ht⟩ = A[j2] := by
        intro hEq
        apply hcase
        have hidx := List.indexOf_getElem hnodup j2 hj2
        rw [hEq, hidx]
      rw [if_neg hne, if_neg hcase]

/-- Witness for C8 at the concrete fit data `[0, 1, 0]` and transform input
`[1, 0]`. -/
theorem oneHotTransform_spec_witness :
    (oneHotTransform (fitAlphabet [0, 1, 0]) [1, 0]).length = 2 ∧
    (∀ row ∈ oneHotTransform (fitAlphabet [0, 1, 0]) [1, 0],
      row.length = (fitAlphabet [0, 1, 0]).length) ∧
    ∀ t (ht : t < ([1, 0] : List ℕ).length), ∃ j,
      ∃ hj : j < (fitAlphabet [0, 1, 0]).length,
      (fitAlphabet [0, 1, 0]).get ⟨j, hj⟩ = ([1, 0] : List ℕ).get ⟨t, ht⟩ ∧
      ∀ j2, j2 < (fitAlphabet [0, 1, 0]).length →
        oneHotEntry (fitAlphabet [0, 1, 0]) [1, 0] t j2
          = if j2 = j then 1 else 0 := by
  have h := oneHotTransform_spec ([0, 1, 0] : List ℕ) [1, 0] (by decide)
  simpa using h

end EncoderThms

section ConditionalThms

variable {m p f : ℕ}

theorem oneHotRow_cases {n : ℕ} {r : Fin n → ℚ} (h : OneHotRow r) (j : Fin n) :
    r j = 0 ∨ r j = 1 := by
  obtain ⟨j0, hj0⟩ := h
  rw [hj0 j]
  by_cases hc : j = j0 <;> simp [hc]

theorem oneHotRow_sum {n : ℕ} {r : Fin n → ℚ} (h : OneHotRow r) :
    ∑ j, r j = 1 := by
  obtain ⟨j0, hj0⟩ := h
  calc ∑ j, r j = ∑ j, if j = j0 then (1 : ℚ) else 0 :=
        Finset.sum_congr rfl fun j _ => hj0 j
    _ = 1 := by simp

theorem jointCounts_apply (P : Matrix (Fin m) (Fin p) ℚ)
    (F : Matrix (Fin m) (Fin f) ℚ) (i : Fin p) (j : Fin f) :
    jointCounts P F i j = ∑ t, P t i * F t j := by
  simp [jointCounts, Matrix.mul_apply, Matrix.transpose_apply]

theorem morphs_apply (P : Matrix (Fin m) (Fin p) ℚ)
    (F : Matrix (Fin m) (Fin f) ℚ) (i : Fin p) (j : Fin f) :
    morphs P F i j = (pCounts P F i)⁻¹ * jointCounts P F i j := by
  simp [morphs, Matrix.diagonal_mul]

/-- With one-hot future rows, the marginal count of past word `i` is the sum
of column `i` of ΦP. -/
theorem pCounts_eq_colSum (P : Matrix (Fin m) (Fin p) ℚ)
    (F : Matrix (Fin m) (Fin f) ℚ) (hF : OneHotRows F) (i : Fin p) :
    pCounts P F i = ∑ t, P t i := by
  unfold pCounts
  calc ∑ j, jointCounts P F i j = ∑ j, ∑ t, P t i * F t j := by
        simp [jointCounts_apply]
    _ = ∑ t, ∑ j, P t i * F t j := Finset.sum_comm
    _ = ∑ t, P t i * ∑ j, F t j := by
        simp [Finset.mul_sum]
    _ = ∑ t, P t i := by
        refine Finset.sum_congr rfl fun t _ => ?_
        rw [oneHotRow_sum (hF t), mul_one]

theorem colSum_pos (P : Matrix (Fin m) (Fin p) ℚ) (hP : OneHotRows P)
    (i : Fin p) (hocc : ∃ t, P t i ≠ 0) : 0 < ∑ t, P t i := by
  obtain ⟨t0, ht0⟩ := hocc
  have h1 : P t0 i = 1 := by
    rcases oneHotRow_cases (hP t0) i with h | h
    · exact absurd h ht0
    · exact h
  have hnn : ∀ t ∈ Finset.univ, (0 : ℚ) ≤ P t i := by
    intro t _
    rcases oneHotRow_cases (hP t) i with h | h
    · rw [h]
    · rw [h]; exact zero_le_one
  have := Finset.single_le_sum hnn (Finset.mem_univ t0)
  rw [h1] at this
  linarith

/-- C3: with one-hot past and future features in which every past word occurs
at least once, every row of `morphs` (the conditional-probability table) sums
to 1 and has all entries in `[0, 1]`. -/
theorem morphs_rows_probability (P : Matrix (Fin m) (Fin p) ℚ)
    (F : Matrix (Fin m) (Fin f) ℚ) (hP : OneHotRows P) (hF : OneHotRows F)
    (hocc : ∀ i, ∃ t, P t i ≠ 0) :
    ∀ i, (∑ j, morphs P F i j) = 1 ∧
      ∀ j, 0 ≤ morphs P F i j ∧ morphs P F i j ≤ 1 := by
  intro i
  have hpc : pCounts P F i = ∑ t, P t i := pCounts_eq_colSum P F hF i
  have hpos : 0 < pCounts P F i := by
    rw [hpc]; exact colSum_pos P hP i (hocc i)
  have hne : pCounts P F i ≠ 0 := ne_of_gt hpos
  have hjnn : ∀ j, 0 ≤ jointCounts P F i j := by
    intro j
    rw [jointCounts_apply]
    refine Finset.sum_nonneg fun t _ => mul_nonneg ?_ ?_
    · rcases oneHotRow_cases (hP t) i with h | h <;> rw [h] <;> norm_num
    · rcases oneHotRow_cases (hF t) j with h | h <;> rw [h] <;> norm_num
  have hjle : ∀ j, jointCounts P F i j ≤ pCounts P F i := by
    intro j
    rw [jointCounts_apply, hpc]
    refine Finset.sum_le_sum fun t _ => ?_
    have hPnn : (0 : ℚ) ≤ P t i := by
      rcases oneHotRow_cases (hP t) i with h | h <;> rw [h] <;> norm_num
    have hFle : F t j ≤ 1 := by
      rcases oneHotRow_cases (hF t) j with h | h <;> rw [h] <;> norm_num
    calc P t i * F t j ≤ P t i * 1 := by
          refine mul_le_mul_of_nonneg_left hFle hPnn
      _ = P t i := mul_one _
  refine ⟨?_, ?_⟩
  · calc ∑ j, morphs P F i j
        = ∑ j, (pCounts P F i)⁻¹ * jointCounts P F i j := by
          simp [morphs_apply]
      _ = (pCounts P F i)⁻¹ * ∑ j, jointCounts P F i j := by
          rw [Finset.mul_sum]
      _ = (pCounts P F i)⁻¹ * pCounts P F i := rfl
      _ = 1 := inv_mul_cancel₀ hne
  · intro j
    rw [morphs_apply]
    constructor
    · exact mul_nonneg (inv_nonneg.mpr hpos.le) (hjnn j)
    · calc (pCounts P F i)⁻¹ * jointCounts P F i j
          ≤ (pCounts P F i)⁻¹ * pCounts P F i :=
            mul_le_mul_of_nonneg_left (hjle j) (inv_nonneg.mpr hpos.le)
        _ = 1 := inv_mul_cancel₀ hne

/-- Witness for C3 at concrete one-hot matrices: 3 windows, 2 past words, 2
future words. -/
theorem morphs_rows_probability_witness :
    (∑ j, morphs
        (Matrix.of ![![(1 : ℚ), 0], ![0, 1], ![1, 0]])
        (Matrix.of ![![(1 : ℚ), 0], ![1, 0], ![0, 1]]) (0 : Fin 2) j) = 1 ∧
      ∀ j, 0 ≤ morphs
        (Matrix.of ![![(1 : ℚ), 0], ![0, 1], ![1, 0]])
        (Matrix.of ![![(1 : ℚ), 0], ![1, 0], ![0, 1]]) (0 : Fin 2) j ∧
        morphs
        (Matrix.of ![![(1 : ℚ), 0], ![0, 1], ![1, 0]])
        (Matrix.of ![![(1 : ℚ), 0], ![1, 0], ![0, 1]]) (0 : Fin 2) j ≤ 1 :=
  morphs_rows_probability
    (Matrix.of ![![(1 : ℚ), 0], ![0, 1], ![1, 0]])
    (Matrix.of ![![(1 : ℚ), 0], ![1, 0], ![0, 1]])
    (by decide) (by decide) (by decide) 0

end ConditionalThms

section LeastSquaresThms

variable {m p f : ℕ}

/-- Shifting the centre of a sum of squared deviations: deviations about any
`b` decompose as deviations about the fiber mean `bhat` plus a quadratic
penalty. -/
theorem sum_sq_shift {ι : Type _} (S : Finset ι) (c : ι → ℚ) (bhat b : ℚ)
    (h : (S.card : ℚ) * bhat = ∑ t ∈ S, c t) :
    ∑ t ∈ S, (c t - b) ^ 2
      = (∑ t ∈ S, (c t - bhat) ^ 2) + (S.card : ℚ) * (b - bhat) ^ 2 := by
  have h2 : ∑ t ∈ S, (c t - b) ^ 2 - ∑ t ∈ S, (c t - bhat) ^ 2
      = (S.card : ℚ) * (b - bhat) ^ 2 := by
    rw [← Finset.sum_sub_distrib]
    have hterm : ∀ t ∈ S, (c t - b) ^ 2 - (c t - bhat) ^ 2
        = (bhat - b) * (2 * c t) + (b ^ 2 - bhat ^ 2) := by
      intro t _
      ring
    rw [Finset.sum_congr rfl hterm, Finset.sum_add_distrib, ← Finset.mul_sum,
      Finset.sum_const, nsmul_eq_mul]
    have h3 : ∑ t ∈ S, 2 * c t = 2 * ((S.card : ℚ) * bhat) := by
      rw [← Finset.mul_sum, ← h]
    rw [h3]
    ring
  linarith

/-- With one-hot past rows, `past_squared = past_vecs.T @ past_vecs` is the
diagonal matrix of per-past-word occurrence counts. -/
theorem pastSquared_diagonal (P : Matrix (Fin m) (Fin p) ℚ)
    (hP : OneHotRows P) :
    pastSquared P = Matrix.diagonal fun i => ∑ t, P t i := by
  ext i i2
  rw [pastSquared, Matrix.mul_apply]
  simp only [Matrix.transpose_apply]
  by_cases h : i = i2
  · subst h
    rw [Matrix.diagonal_apply_eq]
    refine Finset.sum_congr rfl fun t _ => ?_
    rcases oneHotRow_cases (hP t) i with h0 | h0 <;> rw [h0] <;> norm_num
  · rw [Matrix.diagonal_apply_ne _ h]
    refine Finset.sum_eq_zero fun t _ => ?_
    obtain ⟨j0, hj0⟩ := hP t
    rw [hj0 i, hj0 i2]
    by_cases h1 : i = j0
    · by_cases h2 : i2 = j0
      · exact absurd (h1.trans h2.symm) h
      · simp [h2]
    · simp [h1]

/-- `scipy.linalg.inv` on a nonsingular matrix is the Mathlib nonsingular
inverse. -/
theorem scipyInv_eq_inv {p : ℕ} (A : Matrix (Fin p) (Fin p) ℚ)
    (h : A.det ≠ 0) : scipyInv A = some A⁻¹ := by
  rw [scipyInv, if_neg h, Matrix.inv_def, Ring.inverse_eq_inv]

/-- Decomposition of the least-squares objective at one-hot past features:
the loss of any candidate `B2` is the loss of the closed-form matrix plus a
count-weighted quadratic penalty. -/
theorem lsqLoss_decomp (P : Matrix (Fin m) (Fin p) ℚ)
    (F : Matrix (Fin m) (Fin f) ℚ) (w : Fin m → Fin p)
    (hw : ∀ t j2, P t j2 = if j2 = w t then 1 else 0)
    (hocc : ∀ i, ∃ t, P t i ≠ 0) (B2 : Matrix (Fin p) (Fin f) ℚ) :
    lsqLoss P F B2
      = (∑ i, ∑ j, ∑ t ∈ Finset.univ.filter (fun t => w t = i),
          (F t j - closedFormB P F i j) ^ 2)
        + ∑ i, ∑ j, (∑ t, P t i) * (B2 i j - closedFormB P F i j) ^ 2 := by
  have hP : OneHotRows P := fun t => ⟨w t, hw t⟩
  have hPw : ∀ (i : Fin p) (t : Fin m), P t i = if w t = i then (1 : ℚ) else 0 := by
    intro i t
    rw [hw t i]
    by_cases h : w t = i
    · subst h; simp
    · have h2 : ¬ i = w t := fun heq => h heq.symm
      simp [h, h2]
  have hcard : ∀ i : Fin p,
      ((Finset.univ.filter (fun t => w t = i)).card : ℚ) = ∑ t, P t i := by
    intro i
    rw [Finset.sum_congr rfl fun t _ => hPw i t, Finset.sum_boole]
  have hne_cnt : ∀ i : Fin p, (∑ t, P t i) ≠ 0 := fun i =>
    ne_of_gt (colSum_pos P hP i (hocc i))
  have hmean : ∀ (i : Fin p) (j : Fin f),
      ((Finset.univ.filter (fun t => w t = i)).card : ℚ) * closedFormB P F i j
        = ∑ t ∈ Finset.univ.filter (fun t => w t = i), F t j := by
    intro i j
    rw [hcard i]
    simp only [closedFormB, Matrix.of_apply]
    rw [← mul_assoc, mul_inv_cancel₀ (hne_cnt i), one_mul, jointCounts_apply,
      Finset.sum_filter]
    refine Finset.sum_congr rfl fun t _ => ?_
    rw [hPw i t]
    by_cases h : w t = i <;> simp [h]
  have hPB : ∀ (B : Matrix (Fin p) (Fin f) ℚ) (t : Fin m) (j : Fin f),
      (P * B) t j = B (w t) j := by
    intro B t j
    rw [Matrix.mul_apply]
    have hterm : ∀ c, P t c * B c j = if c = w t then B c j else 0 := by
      intro c
      rw [hw t c]
      by_cases h : c = w t <;> simp [h]
    rw [Finset.sum_congr rfl fun c _ => hterm c,
      Finset.sum_ite_eq' Finset.univ (w t) fun c => B c j]
    simp
  calc lsqLoss P F B2
      = ∑ t, ∑ j, (F t j - B2 (w t) j) ^ 2 := by
        unfold lsqLoss frobSq
        refine Finset.sum_congr rfl fun t _ => Finset.sum_congr rfl fun j _ => ?_
        rw [Matrix.sub_apply, hPB B2 t j]
    _ = ∑ i, ∑ t ∈ Finset.univ.filter (fun t => w t = i),
          ∑ j, (F t j - B2 (w t) j) ^ 2 :=
        (Finset.sum_fiberwise _ _ _).symm
    _ = ∑ i, ∑ t ∈ Finset.univ.filter (fun t => w t = i),
          ∑ j, (F t j - B2 i j) ^ 2 := by
        refine Finset.sum_congr rfl fun i _ => Finset.sum_congr rfl fun t ht => ?_
        rw [(Finset.mem_filter.mp ht).2]
    _ = ∑ i, ∑ j, ∑ t ∈ Finset.univ.filter (fun t => w t = i),
          (F t j - B2 i j) ^ 2 := by
        exact Finset.sum_congr rfl fun i _ => Finset.sum_comm
    _ = ∑ i, ∑ j, ((∑ t ∈ Finset.univ.filter (fun t => w t = i),
          (F t j - closedFormB P F i j) ^ 2)
            + (∑ t, P t i) * (B2 i j - closedFormB P F i j) ^ 2) := by
        refine Finset.sum_congr rfl fun i _ => Finset.sum_congr rfl fun j _ => ?_
        rw [sum_sq_shift (Finset.univ.filter (fun t => w t = i))
          (fun t => F t j) (closedFormB P F i j) (B2 i j) (hmean i j), hcard i]
    _ = _ := by
        simp only [Finset.sum_add_distrib]

/-- At the closed-form matrix itself the penalty vanishes. -/
theorem lsqLoss_closedForm (P : Matrix (Fin m) (Fin p) ℚ)
    (F : Matrix (Fin m) (Fin f) ℚ) (w : Fin m → Fin p)
    (hw : ∀ t j2, P t j2 = if j2 = w t then 1 else 0)
    (hocc : ∀ i, ∃ t, P t i ≠ 0) :
    lsqLoss P F (closedFormB P F)
      = ∑ i, ∑ j, ∑ t ∈ Finset.univ.filter (fun t => w t = i),
          (F t j - closedFormB P F i j) ^ 2 := by
  rw [lsqLoss_decomp P F w hw hocc (closedFormB P F)]
  simp

/-- C1: with one-hot features and no zero-marginal past word, the notebook's
closed-form route `new_morphs = inv(past_squared) @ joint_counts` succeeds,
`past_squared` is the diagonal matrix of per-past-word occurrence counts, and
the closed-form result is exactly (hence within any tolerance such as `1e-8`)
the unique coefficient matrix of the no-intercept least-squares route
`argmin_B ||ΦF − ΦP·B||^2`. -/
theorem newMorphs_eq_leastSquares (P : Matrix (Fin m) (Fin p) ℚ)
    (F : Matrix (Fin m) (Fin f) ℚ) (hP : OneHotRows P) (hF : OneHotRows F)
    (hocc : ∀ i, ∃ t, P t i ≠ 0) :
    pastSquared P = Matrix.diagonal (fun i => ∑ t, P t i) ∧
    ∃ B, newMorphs P F = some B ∧ IsLSQMin P F B ∧
      ∀ B2, IsLSQMin P F B2 → B2 = B := by
  have hP2 : ∀ t, ∃ jj, ∀ j2, P t j2 = if j2 = jj then 1 else 0 := hP
  choose w hw using hP2
  have hdiag : pastSquared P = Matrix.diagonal fun i => ∑ t, P t i :=
    pastSquared_diagonal P hP
  have hcnt_pos : ∀ i, 0 < ∑ t, P t i := fun i => colSum_pos P hP i (hocc i)
  have hdet : (Matrix.diagonal fun i : Fin p => ∑ t, P t i).det ≠ 0 := by
    rw [Matrix.det_diagonal]
    exact Finset.prod_ne_zero_iff.mpr fun i _ => ne_of_gt (hcnt_pos i)
  have hinv : scipyInv (pastSquared P)
      = some (Matrix.diagonal fun i => (∑ t, P t i)⁻¹) := by
    have hright : (Matrix.diagonal fun i : Fin p => ∑ t, P t i)
        * (Matrix.diagonal fun i => (∑ t, P t i)⁻¹) = 1 := by
      rw [Matrix.diagonal_mul_diagonal]
      rw [show (fun i => (∑ t, P t i) * (∑ t, P t i)⁻¹) = fun _ : Fin p => (1 : ℚ)
        from funext fun i => mul_inv_cancel₀ (ne_of_gt (hcnt_pos i))]
      exact Matrix.diagonal_one
    rw [hdiag, scipyInv_eq_inv _ hdet, Matrix.inv_eq_right_inv hright]
  have hB : newMorphs P F = some (closedFormB P F) := by
    unfold newMorphs
    rw [hinv]
    simp only [Option.map_some']
    congr 1
    ext i j
    simp [closedFormB, Matrix.diagonal_mul]
  refine ⟨hdiag, closedFormB P F, hB, ?_, ?_⟩
  · intro B2
    rw [lsqLoss_decomp P F w hw hocc B2, lsqLoss_closedForm P F w hw hocc]
    have hQ : 0 ≤ ∑ i, ∑ j, (∑ t, P t i) * (B2 i j - closedFormB P F i j) ^ 2 :=
      Finset.sum_nonneg fun i _ => Finset.sum_nonneg fun j _ =>
        mul_nonneg (hcnt_pos i).le (sq_nonneg _)
    linarith
  · intro B2 hB2
    have h1 : lsqLoss P F B2 ≤ lsqLoss P F (closedFormB P F) := hB2 _
    rw [lsqLoss_decomp P F w hw hocc B2,
      lsqLoss_closedForm P F w hw hocc] at h1
    have hQnn : ∀ i ∈ Finset.univ,
        (0 : ℚ) ≤ ∑ j, (∑ t, P t i) * (B2 i j - closedFormB P F i j) ^ 2 :=
      fun i _ => Finset.sum_nonneg fun j _ =>
        mul_nonneg (hcnt_pos i).le (sq_nonneg _)
    have hQ0 : ∑ i, ∑ j, (∑ t, P t i) * (B2 i j - closedFormB P F i j) ^ 2
        = 0 := by
      have := Finset.sum_nonneg hQnn
      linarith
    ext i j
    have hi := (Finset.sum_eq_zero_iff_of_nonneg hQnn).mp hQ0 i
      (Finset.mem_univ i)
    have hjnn : ∀ j ∈ Finset.univ,
        (0 : ℚ) ≤ (∑ t, P t i) * (B2 i j - closedFormB P F i j) ^ 2 :=
      fun j _ => mul_nonneg (hcnt_pos i).le (sq_nonneg _)
    have hj := (Finset.sum_eq_zero_iff_of_nonneg hjnn).mp hi j
      (Finset.mem_univ j)
    rcases mul_eq_zero.mp hj with h | h
    · exact absurd h (ne_of_gt (hcnt_pos i))
    · exact sub_eq_zero.mp (sq_eq_zero_iff.mp h)

/-- Witness for C1 at concrete one-hot matrices: 3 windows, 2 past words, 2
future words. -/
theorem newMorphs_eq_leastSquares_witness :
    pastSquared (Matrix.of ![![(1 : ℚ), 0], ![0, 1], ![1, 0]])
        = Matrix.diagonal (fun i => ∑ t,
            Matrix.of ![![(1 : ℚ), 0], ![0, 1], ![1, 0]] t i) ∧
    ∃ B, newMorphs (Matrix.of ![![(1 : ℚ), 0], ![0, 1], ![1, 0]])
        (Matrix.of ![![(1 : ℚ), 0], ![1, 0], ![0, 1]]) = some B ∧
      IsLSQMin (Matrix.of ![![(1 : ℚ), 0], ![0, 1], ![1, 0]])
        (Matrix.of ![![(1 : ℚ), 0], ![1, 0], ![0, 1]]) B ∧
      ∀ B2, IsLSQMin (Matrix.of ![![(1 : ℚ), 0], ![0, 1], ![1, 0]])
        (Matrix.of ![![(1 : ℚ), 0], ![1, 0], ![0, 1]]) B2 → B2 = B :=
  newMorphs_eq_leastSquares
    (Matrix.of ![![(1 : ℚ), 0], ![0, 1], ![1, 0]])
    (Matrix.of ![![(1 : ℚ), 0], ![1, 0], ![0, 1]])
    (by decide) (by decide) (by decide)

end LeastSquaresThms

section SingularMarginalThms

variable {W : Type _} [DecidableEq W]

/-- The matrix form agrees entrywise with the list-of-rows transform. -/
theorem featureMatrix_eq_oneHotEntry (alphabet ws : List W)
    (t : Fin ws.length) (j : Fin alphabet.length) :
    featureMatrix alphabet ws t j = oneHotEntry alphabet ws t j := by
  have htm : (t : ℕ) < (oneHotTransform alphabet ws).length := by
    simpa [oneHotTransform] using t.isLt
  have hrow : (oneHotTransform alphabet ws).getD t []
      = alphabet.map fun a => if ws.get t = a then (1 : ℚ) else 0 := by
    rw [List.getD_eq_getElem _ _ htm]
    simp [oneHotTransform, List.get_eq_getElem]
  have hjm : (j : ℕ) < (alphabet.map fun a =>
      if ws.get t = a then (1 : ℚ) else 0).length := by
    simpa using j.isLt
  rw [oneHotEntry, hrow, List.getD_eq_getElem _ _ hjm, List.getElem_map]
  simp [featureMatrix, List.get_eq_getElem]

/-- Rows of the feature matrix over a fitted alphabet are one-hot. -/
theorem featureMatrix_oneHotRows (ds : List W) :
    OneHotRows (featureMatrix (fitAlphabet ds) ds) := by
  intro t
  have hmem : ds.get t ∈ fitAlphabet ds :=
    (fitAlphabet_mem ds _).mpr (ds.get_mem _ _)
  have hlt : List.indexOf (ds.get t) (fitAlphabet ds)
      < (fitAlphabet ds).length := List.indexOf_lt_length.mpr hmem
  refine ⟨⟨List.indexOf (ds.get t) (fitAlphabet ds), hlt⟩, fun j2 => ?_⟩
  by_cases h : j2 = (⟨List.indexOf (ds.get t) (fitAlphabet ds), hlt⟩ :
      Fin (fitAlphabet ds).length)
  · subst h
    simp [featureMatrix, (List.indexOf_get hlt).symm]
  · have hne : ds.get t ≠ (fitAlphabet ds).get j2 := by
      intro hEq
      exact h ((List.Nodup.get_inj_iff (fitAlphabet_nodup ds)).mp
        ((List.indexOf_get hlt).trans hEq)).symm
    simp only [featureMatrix, Matrix.of_apply]
    rw [if_neg hne, if_neg h]

/-- C7: with one-hot past features, a past word of marginal count zero makes
the closed-form route fail (`inv(past_squared)` raises, modelled as `none`,
so no result is produced); but when the past feature matrix is built by
one-hot encoding the very windows the alphabet was fitted on — as the
notebook does — every alphabet word occurs at least once, so the
zero-marginal situation is unreachable and the closed-form route always
returns a result. -/
theorem singularMarginal_spec {m p f : ℕ} (P : Matrix (Fin m) (Fin p) ℚ)
    (F : Matrix (Fin m) (Fin f) ℚ) (hP : OneHotRows P) (ds : List W) :
    ((∃ i, ∀ t, P t i = 0) → newMorphs P F = none) ∧
    (∀ j, ∃ t, featureMatrix (fitAlphabet ds) ds t j ≠ 0) ∧
    (∀ (f2 : ℕ) (F2 : Matrix (Fin ds.length) (Fin f2) ℚ),
      newMorphs (featureMatrix (fitAlphabet ds) ds) F2 ≠ none) := by
  have hocc : ∀ j, ∃ t, featureMatrix (fitAlphabet ds) ds t j ≠ 0 := by
    intro j
    have hmem : (fitAlphabet ds).get j ∈ ds :=
      (fitAlphabet_mem ds _).mp ((fitAlphabet ds).get_mem _ _)
    obtain ⟨t, ht⟩ := List.mem_iff_get.mp hmem
    refine ⟨t, ?_⟩
    simp only [featureMatrix, Matrix.of_apply]
    rw [if_pos ht]
    exact one_ne_zero
  refine ⟨?_, hocc, ?_⟩
  · rintro ⟨i0, hi0⟩
    have hdiag : pastSquared P = Matrix.diagonal fun i => ∑ t, P t i :=
      pastSquared_diagonal P hP
    have hdet : (pastSquared P).det = 0 := by
      rw [hdiag, Matrix.det_diagonal]
      refine Finset.prod_eq_zero (Finset.mem_univ i0) ?_
      exact Finset.sum_eq_zero fun t _ => hi0 t
    unfold newMorphs
    rw [scipyInv, if_pos hdet]
    rfl
  · intro f2 F2
    have hdiag : pastSquared (featureMatrix (fitAlphabet ds) ds)
        = Matrix.diagonal fun i => ∑ t, featureMatrix (fitAlphabet ds) ds t i :=
      pastSquared_diagonal _ (featureMatrix_oneHotRows ds)
    have hdet : (pastSquared (featureMatrix (fitAlphabet ds) ds)).det ≠ 0 := by
      rw [hdiag, Matrix.det_diagonal]
      refine Finset.prod_ne_zero_iff.mpr fun i _ => ?_
      exact ne_of_gt (colSum_pos _ (featureMatrix_oneHotRows ds) i (hocc i))
    unfold newMorphs
    rw [scipyInv, if_neg hdet]
    simp

/-- Witness for C7 at a concrete one-hot `P` with an all-zero column (the
first past word never occurs) and concrete encoder data. -/
theorem singularMarginal_spec_witness :
    ((∃ i, ∀ t, Matrix.of ![![(0 : ℚ), 1], ![0, 1]] t i = 0) →
      newMorphs (Matrix.of ![![(0 : ℚ), 1], ![0, 1]])
        (Matrix.of ![![(1 : ℚ)], ![1]]) = none) ∧
    (∀ j, ∃ t, featureMatrix (fitAlphabet [0, 1, 0]) [0, 1, 0] t j ≠ 0) ∧
    (∀ (f2 : ℕ) (F2 : Matrix (Fin ([0, 1, 0] : List ℕ).length) (Fin f2) ℚ),
      newMorphs (featureMatrix (fitAlphabet [0, 1, 0]) [0, 1, 0]) F2 ≠ none) :=
  singularMarginal_spec (Matrix.of ![![(0 : ℚ), 1], ![0, 1]])
    (Matrix.of ![![(1 : ℚ)], ![1]]) (by decide) ([0, 1, 0] : List ℕ)

end SingularMarginalThms

section SVDThms

variable {p f : ℕ}

/-- Entrywise, the sliced product is the sum of the top-`k` rank-one singular
triplets. -/
theorem svdTruncSlice_apply (U : Matrix (Fin p) (Fin p) ℚ)
    (s : Fin (min p f) → ℚ) (VT : Matrix (Fin f) (Fin f) ℚ) (k : ℕ)
    (hk : k ≤ min p f) (i : Fin p) (j : Fin f) :
    svdTruncSlice U s VT k hk i j
      = ∑ l : Fin (min p f), if (l : ℕ) < k then
          s l * U i (Fin.castLE (min_le_left p f) l)
            * VT (Fin.castLE (min_le_right p f) l) j else 0 := by
  have hL : svdTruncSlice U s VT k hk i j
      = ∑ l2 : Fin k, U i (Fin.castLE (hk.trans (min_le_left p f)) l2)
          * s (Fin.castLE hk l2)
          * VT (Fin.castLE (hk.trans (min_le_right p f)) l2) j := by
    unfold svdTruncSlice
    rw [Matrix.mul_apply]
    refine Finset.sum_congr rfl fun l2 _ => ?_
    rw [Matrix.mul_diagonal]
    simp [Matrix.submatrix_apply]
  rw [hL, ← Finset.sum_filter]
  refine Finset.sum_bij' (fun (l2 : Fin k) _ => Fin.castLE hk l2)
    (fun (l : Fin (min p f)) hl =>
      (⟨(l : ℕ), (Finset.mem_filter.mp hl).2⟩ : Fin k)) ?_ ?_ ?_ ?_ ?_
  · intro a _
    simp [Finset.mem_filter, a.isLt]
  · intro a _
    exact Finset.mem_univ _
  · intro a _
    rfl
  · intro a _
    rfl
  · intro a _
    have e1 : Fin.castLE (min_le_left p f) (Fin.castLE hk a)
        = Fin.castLE (hk.trans (min_le_left p f)) a := rfl
    have e2 : Fin.castLE (min_le_right p f) (Fin.castLE hk a)
        = Fin.castLE (hk.trans (min_le_right p f)) a := rfl
    rw [e1, e2]
    ring

/-- C4: for any SVD `(U, s, VT)` of `C` and any rank `0 < k ≤ min(rows, cols)`:
the truncation is the sum of the top-`k` rank-one singular triplets (the
rank-`k` SVD reconstruction); the truncation has an SVD whose singular values
vanish beyond index `k` (it is a rank-at-most-`k` matrix); truncating it again
at rank `k` along that SVD returns it unchanged (idempotence); and truncating
at `k = min(rows, cols)` returns `C` itself. -/
theorem svdTruncate_spec (A U : _) (s : Fin (min p f) → ℚ)
    (VT : Matrix (Fin f) (Fin f) ℚ) (k : ℕ)
    (hsvd : IsSVD A U s VT) (hk0 : 0 < k) (hk : k ≤ min p f) :
    (∀ i j, svdTruncSlice U s VT k hk i j
      = ∑ l : Fin (min p f), if (l : ℕ) < k then
          s l * U i (Fin.castLE (min_le_left p f) l)
            * VT (Fin.castLE (min_le_right p f) l) j else 0) ∧
    IsSVD (svdTruncSlice U s VT k hk) U (truncSigma s k) VT ∧
    svdTruncSlice U (truncSigma s k) VT k hk = svdTruncSlice U s VT k hk ∧
    svdTruncSlice U s VT (min p f) (le_refl _) = A := by
  obtain ⟨hU, hV, hnn, hmono, hrecon⟩ := hsvd
  have hagree : svdTruncSlice U (truncSigma s k) VT k hk
      = svdTruncSlice U s VT k hk := by
    ext i j
    rw [svdTruncSlice_apply, svdTruncSlice_apply]
    refine Finset.sum_congr rfl fun l _ => ?_
    by_cases h : (l : ℕ) < k
    · rw [if_pos h, if_pos h, truncSigma, if_pos h]
    · rw [if_neg h, if_neg h]
  refine ⟨svdTruncSlice_apply U s VT k hk, ⟨hU, hV, ?_, ?_, ?_⟩, hagree, hrecon.symm⟩
  · intro l
    unfold truncSigma
    by_cases h : (l : ℕ) < k
    · rw [if_pos h]; exact hnn l
    · rw [if_neg h]
  · intro l l2 hle
    unfold truncSigma
    by_cases h2 : (l2 : ℕ) < k
    · have h1 : (l : ℕ) < k := lt_of_le_of_lt hle h2
      rw [if_pos h1, if_pos h2]
      exact hmono l l2 hle
    · rw [if_neg h2]
      by_cases h1 : (l : ℕ) < k
      · rw [if_pos h1]; exact hnn l
      · rw [if_neg h1]
  · ext i j
    rw [svdTruncSlice_apply, svdTruncSlice_apply]
    refine Finset.sum_congr rfl fun l _ => ?_
    rw [if_pos l.isLt]
    unfold truncSigma
    by_cases h : (l : ℕ) < k
    · rw [if_pos h, if_pos h]
    · rw [if_neg h, if_neg h]
      ring

/-- Witness for C4 at the concrete SVD `C = 0` (1 by 1), `U = VT = 1`,
`s = (0)`, truncated at `k = 1`. -/
theorem svdTruncate_spec_witness :
    (∀ i j, svdTruncSlice (1 : Matrix (Fin 1) (Fin 1) ℚ)
        (![(0 : ℚ)] : Fin (min 1 1) → ℚ) (1 : Matrix (Fin 1) (Fin 1) ℚ) 1
        (by decide) i j
      = ∑ l : Fin (min 1 1), if (l : ℕ) < 1 then
          (![(0 : ℚ)] : Fin (min 1 1) → ℚ) l
            * (1 : Matrix (Fin 1) (Fin 1) ℚ) i (Fin.castLE (min_le_left 1 1) l)
            * (1 : Matrix (Fin 1) (Fin 1) ℚ) (Fin.castLE (min_le_right 1 1) l) j
          else 0) ∧
    IsSVD (svdTruncSlice (1 : Matrix (Fin 1) (Fin 1) ℚ)
        (![(0 : ℚ)] : Fin (min 1 1) → ℚ) (1 : Matrix (Fin 1) (Fin 1) ℚ) 1
        (by decide))
      (1 : Matrix (Fin 1) (Fin 1) ℚ)
      (truncSigma (![(0 : ℚ)] : Fin (min 1 1) → ℚ) 1)
      (1 : Matrix (Fin 1) (Fin 1) ℚ) ∧
    svdTruncSlice (1 : Matrix (Fin 1) (Fin 1) ℚ)
        (truncSigma (![(0 : ℚ)] : Fin (min 1 1) → ℚ) 1)
        (1 : Matrix (Fin 1) (Fin 1) ℚ) 1 (by decide)
      = svdTruncSlice (1 : Matrix (Fin 1) (Fin 1) ℚ)
        (![(0 : ℚ)] : Fin (min 1 1) → ℚ) (1 : Matrix (Fin 1) (Fin 1) ℚ) 1
        (by decide) ∧
    svdTruncSlice (1 : Matrix (Fin 1) (Fin 1) ℚ)
        (![(0 : ℚ)] : Fin (min 1 1) → ℚ) (1 : Matrix (Fin 1) (Fin 1) ℚ)
        (min 1 1) (le_refl _)
      = (0 : Matrix (Fin 1) (Fin 1) ℚ) :=
  svdTruncate_spec (0 : Matrix (Fin 1) (Fin 1) ℚ)
    (1 : Matrix (Fin 1) (Fin 1) ℚ) (![(0 : ℚ)] : Fin (min 1 1) → ℚ)
    (1 : Matrix (Fin 1) (Fin 1) ℚ) 1
    (by refine ⟨by simp, by simp, ?_, ?_, ?_⟩
        · intro l
          fin_cases l
          norm_num
        · intro l l2 h
          fin_cases l <;> fin_cases l2 <;> norm_num
        · ext i j
          rw [svdTruncSlice_apply, Matrix.zero_apply]
          symm
          refine Finset.sum_eq_zero fun l _ => ?_
          have h0 : (![(0 : ℚ)] : Fin (min 1 1) → ℚ) l = 0 := by
            fin_cases l
            rfl
          rw [h0, zero_mul, zero_mul, ite_self])
    (by decide) (by decide)

end SVDThms

section NumpyModelThms

theorem natSum_succ (n : ℕ) (g : ℕ → ℚ) :
    natSum (n + 1) g = natSum n g + g n := by
  have haux : ∀ (l : List ℕ) (c : ℚ),
      l.foldr (fun i acc => g i + acc) c
        = l.foldr (fun i acc => g i + acc) 0 + c := by
    intro l
    induction l with
    | nil => intro c; simp
    | cons x l ih =>
        intro c
        rw [List.foldr_cons, List.foldr_cons, ih c]
        ring
  unfold natSum
  rw [List.range_succ, List.foldr_append]
  simp only [List.foldr_cons, List.foldr_nil]
  rw [haux]
  ring

theorem natSum_congr (n : ℕ) (g h : ℕ → ℚ) (hgh : ∀ i, i < n → g i = h i) :
    natSum n g = natSum n h := by
  induction n with
  | zero => rfl
  | succ n ih =>
      rw [natSum_succ, natSum_succ, ih fun i hi => hgh i (Nat.lt_succ_of_lt hi),
        hgh n (Nat.lt_succ_self n)]

theorem natSum_eq_zero (n : ℕ) (g : ℕ → ℚ) (hg : ∀ i, i < n → g i = 0) :
    natSum n g = 0 := by
  induction n with
  | zero => rfl
  | succ n ih =>
      rw [natSum_succ, ih fun i hi => hg i (Nat.lt_succ_of_lt hi),
        hg n (Nat.lt_succ_self n), add_zero]

theorem natSum_ite (n j : ℕ) (g : ℕ → ℚ) :
    natSum n (fun l => if l = j then g l else 0)
      = if j < n then g j else 0 := by
  induction n with
  | zero => rw [if_neg (Nat.not_lt_zero j)]; rfl
  | succ n ih =>
      rw [natSum_succ, ih]
      by_cases h : j < n
      · rw [if_pos h, if_pos (Nat.lt_succ_of_lt h), if_neg (by omega), add_zero]
      · by_cases h2 : n = j
        · subst h2
          rw [if_neg h, if_pos (Nat.lt_succ_self n), if_pos rfl, zero_add]
        · rw [if_neg h, if_neg h2, if_neg (by omega), add_zero]

/-- C5 counterexample: requesting rank 0 on a 2 by 2 coefficient matrix
raises no error at all — the bottleneck line completes and stores the
all-zero matrix (`U[:, :0]` is 2 by 0, `np.diag(s[:0])` is 0 by 0,
`VT[:0]` is 0 by 2). -/
theorem svdRank0_completes :
    npBottleneck ⟨2, 2, fun i j => if i = j then 1 else 0⟩ 2
      (fun l => if l = 0 then 2 else 1)
      ⟨2, 2, fun i j => if i = j then 1 else 0⟩ 0
      = some ⟨2, 2, fun _ _ => 0⟩ := rfl

/-- C5 (amended): `SVDRegressor` performs no rank validation; a rank-0
truncation request completes for every input, storing the all-zero
bottleneck matrix instead of failing. -/
theorem svdRank0_zero_bottleneck (U VT : NpMat) (sLen : ℕ) (sv : ℕ → ℚ) :
    npBottleneck U sLen sv VT 0 = some ⟨U.rows, VT.cols, fun _ _ => 0⟩ := by
  have z1 : min 0 U.cols = 0 := by omega
  have z2 : min 0 sLen = 0 := by omega
  have z3 : min 0 VT.rows = 0 := by omega
  unfold npBottleneck npMatmul npColSlice npRowSlice npDiag
  rw [z1, z2, z3]
  rfl

/-- C10 counterexample: on a non-square 1 by 2 coefficient matrix (scipy
`svd` shapes: `U` is 1 by 1, one singular value, `VT` is 2 by 2), a rank
request `n_components = 2 ≥ min(1, 2)` makes the second matrix product fail
on an inner-dimension mismatch (1 by 1 times 2 by 2), so `fit` does not
complete and no bottleneck is produced. -/
theorem svdRankBeyondMin_fails :
    npBottleneck ⟨1, 1, fun _ _ => 1⟩ 1 (fun _ => 1)
      ⟨2, 2, fun i j => if i = j then 1 else 0⟩ 2 = none := rfl

/-- C10 (amended): for scipy-shaped SVD factors of a `p` by `f` coefficient
matrix and any rank `k ≤ min p f`, `SVDRegressor.fit` completes with no rank
validation; the stored bottleneck is `p` by `f` with entries the top-`k`
partial reconstruction; at `k = 0` it is the all-zero matrix and `predict`
returns all-zero predictions; at `k = min p f` it is the full reconstruction
`U @ diag(s) @ VT`. -/
theorem svdRegressor_rank_total (p f sLen k : ℕ) (U VT : NpMat) (sv : ℕ → ℚ)
    (hUr : U.rows = p) (hUc : U.cols = p) (hVr : VT.rows = f)
    (hVc : VT.cols = f) (hs : sLen = min p f) (hk : k ≤ min p f) :
    ∃ Z, npBottleneck U sLen sv VT k = some Z ∧ Z.rows = p ∧ Z.cols = f ∧
      (∀ i j, Z.entry i j = natSum k fun l => U.entry i l * sv l * VT.entry l j) ∧
      (k = 0 → (∀ i j, Z.entry i j = 0) ∧
        ∀ X : NpMat, X.cols = p → ∃ ZP, npPredict X Z = some ZP ∧
          ∀ i j, ZP.entry i j = 0) ∧
      (k = min p f → ∀ i j, Z.entry i j
        = natSum (min p f) fun l => U.entry i l * sv l * VT.entry l j) := by
  have e1 : min k U.cols = k := by rw [hUc]; omega
  have e2 : min k sLen = k := by rw [hs]; omega
  have e3 : min k VT.rows = k := by rw [hVr]; omega
  have h1 : npMatmul (npColSlice U k) (npDiag (min k sLen) sv)
      = some ⟨U.rows, min k sLen, fun i j =>
          natSum (min k U.cols) fun l =>
            U.entry i l * (if l = j then sv l else 0)⟩ := by
    unfold npMatmul npColSlice npDiag
    rw [if_pos (show min k U.cols = min k sLen by rw [e1, e2])]
  have h2 : npBottleneck U sLen sv VT k
      = some ⟨U.rows, VT.cols, fun i j =>
          natSum (min k sLen) fun l2 =>
            (natSum (min k U.cols) fun l =>
              U.entry i l * (if l = l2 then sv l else 0)) * VT.entry l2 j⟩ := by
    unfold npBottleneck
    rw [h1]
    show npMatmul _ (npRowSlice VT k) = _
    unfold npMatmul npRowSlice
    rw [if_pos (show min k sLen = min k VT.rows by rw [e2, e3])]
  have hentry : ∀ i j,
      (natSum (min k sLen) fun l2 =>
        (natSum (min k U.cols) fun l =>
          U.entry i l * (if l = l2 then sv l else 0)) * VT.entry l2 j)
      = natSum k fun l => U.entry i l * sv l * VT.entry l j := by
    intro i j
    rw [e2]
    refine natSum_congr k _ _ fun l2 hl2 => ?_
    have hE : (natSum (min k U.cols) fun l =>
        U.entry i l * (if l = l2 then sv l else 0)) = U.entry i l2 * sv l2 := by
      rw [e1]
      have hfun : (fun l => U.entry i l * (if l = l2 then sv l else 0))
          = fun l => if l = l2 then U.entry i l * sv l else 0 := by
        funext l
        by_cases h : l = l2 <;> simp [h]
      rw [hfun, natSum_ite, if_pos hl2]
    rw [hE]
  refine ⟨⟨U.rows, VT.cols, fun i j => natSum k fun l =>
      U.entry i l * sv l * VT.entry l j⟩, ?_, hUr, hVc, fun i j => rfl, ?_, ?_⟩
  · rw [h2]
    congr 2
    funext i j
    exact hentry i j
  · intro hk0
    have hzl : ∀ (a b : ℕ),
        (natSum k fun l3 => U.entry a l3 * sv l3 * VT.entry l3 b) = 0 := by
      intro a b
      rw [hk0]
      rfl
    constructor
    · intro i j
      exact hzl i j
    · intro X hX
      refine ⟨⟨X.rows, VT.cols, fun i j => natSum X.cols fun l =>
          X.entry i l * (natSum k fun l3 =>
            U.entry l l3 * sv l3 * VT.entry l3 j)⟩, ?_, ?_⟩
      · unfold npPredict npMatmul
        rw [if_pos (show X.cols = U.rows from by rw [hX, hUr])]
      · intro i j
        refine natSum_eq_zero _ _ fun l hl => ?_
        show X.entry i l * (natSum k fun l3 =>
          U.entry l l3 * sv l3 * VT.entry l3 j) = 0
        rw [hzl l j, mul_zero]
  · intro hkm i j
    show (natSum k fun l => U.entry i l * sv l * VT.entry l j) = _
    rw [hkm]

/-- Witness for the amended C10 at a concrete square 1 by 1 configuration
with `k = 1 = min(1, 1)`. -/
theorem svdRegressor_rank_total_witness :
    ∃ Z, npBottleneck ⟨1, 1, fun _ _ => 1⟩ 1 (fun _ => 1)
        ⟨1, 1, fun _ _ => 1⟩ 1 = some Z ∧ Z.rows = 1 ∧ Z.cols = 1 ∧
      (∀ i j, Z.entry i j = natSum 1 fun l =>
        (NpMat.mk 1 1 fun _ _ => (1 : ℚ)).entry i l * (fun _ => (1 : ℚ)) l
          * (NpMat.mk 1 1 fun _ _ => (1 : ℚ)).entry l j) ∧
      ((1 : ℕ) = 0 → (∀ i j, Z.entry i j = 0) ∧
        ∀ X : NpMat, X.cols = 1 → ∃ ZP, npPredict X Z = some ZP ∧
          ∀ i j, ZP.entry i j = 0) ∧
      ((1 : ℕ) = min 1 1 → ∀ i j, Z.entry i j
        = natSum (min 1 1) fun l =>
          (NpMat.mk 1 1 fun _ _ => (1 : ℚ)).entry i l * (fun _ => (1 : ℚ)) l
            * (NpMat.mk 1 1 fun _ _ => (1 : ℚ)).entry l j) :=
  svdRegressor_rank_total 1 1 1 1 ⟨1, 1, fun _ _ => 1⟩ ⟨1, 1, fun _ _ => 1⟩
    (fun _ => 1) rfl rfl rfl rfl (by decide) (by decide)

end NumpyModelThms

section CrossValidationThms

theorem foldStart_zero (n F : ℕ) : foldStart n F 0 = 0 := by
  unfold foldStart
  omega

theorem foldStart_succ (n F i : ℕ) :
    foldStart n F (i + 1) = foldStart n F i + foldSize n F i := by
  unfold foldStart foldSize
  rcases Nat.lt_or_ge i (n % F) with h | h
  · rw [if_pos h]
    have h1 : min (i + 1) (n % F) = i + 1 := by omega
    have h2 : min i (n % F) = i := by omega
    rw [h1, h2]
    ring
  · rw [if_neg (Nat.not_lt.mpr h)]
    have h1 : min (i + 1) (n % F) = n % F := by omega
    have h2 : min i (n % F) = n % F := by omega
    rw [h1, h2]
    ring

theorem foldStart_last (n F : ℕ) (hF : 0 < F) : foldStart n F F = n := by
  unfold foldStart
  have h1 : min F (n % F) = n % F :=
    Nat.min_eq_right (le_of_lt (Nat.mod_lt n hF))
  rw [h1]
  exact Nat.div_add_mod n F

theorem foldStart_mono (n F : ℕ) {i i2 : ℕ} (h : i ≤ i2) :
    foldStart n F i ≤ foldStart n F i2 := by
  unfold foldStart
  exact Nat.add_le_add (Nat.mul_le_mul_right _ h) (min_le_min h (le_refl _))

theorem mem_foldTestIdx (n F i r : ℕ) :
    r ∈ foldTestIdx n F i ↔ r < n ∧ foldStart n F i ≤ r ∧
      r < foldStart n F i + foldSize n F i := by
  simp [foldTestIdx, List.mem_filter, List.mem_range]

theorem foldTest_cover (n F : ℕ) (hF : 0 < F) (r : ℕ) (hr : r < n) :
    ∃ i, i < F ∧ foldStart n F i ≤ r ∧
      r < foldStart n F i + foldSize n F i := by
  have key : ∀ m, r < foldStart n F m →
      ∃ i, i < m ∧ foldStart n F i ≤ r ∧
        r < foldStart n F i + foldSize n F i := by
    intro m
    induction m with
    | zero =>
        intro h
        rw [foldStart_zero] at h
        exact absurd h (Nat.not_lt_zero r)
    | succ m ih =>
        intro h
        rcases Nat.lt_or_ge r (foldStart n F m) with h2 | h2
        · obtain ⟨i, hi, hle, hlt⟩ := ih h2
          exact ⟨i, Nat.lt_succ_of_lt hi, hle, hlt⟩
        · refine ⟨m, Nat.lt_succ_self m, h2, ?_⟩
          rw [← foldStart_succ]
          exact h
  have := key F (by rw [foldStart_last n F hF]; exact hr)
  obtain ⟨i, hi, hle, hlt⟩ := this
  exact ⟨i, hi, hle, hlt⟩

theorem foldTest_unique (n F : ℕ) (r i i2 : ℕ)
    (h1 : foldStart n F i ≤ r ∧ r < foldStart n F i + foldSize n F i)
    (h2 : foldStart n F i2 ≤ r ∧ r < foldStart n F i2 + foldSize n F i2) :
    i = i2 := by
  by_contra hne
  rcases Nat.lt_or_ge i i2 with h | h
  · have hstep : foldStart n F (i + 1) ≤ foldStart n F i2 :=
      foldStart_mono n F h
    rw [foldStart_succ] at hstep
    omega
  · have h3 : i2 < i := by omega
    have hstep : foldStart n F (i2 + 1) ≤ foldStart n F i :=
      foldStart_mono n F h3
    rw [foldStart_succ] at hstep
    omega

/-- C9: standard k-fold cross-validation as the notebook configures it —
every row index is held out in exactly one of the `F` folds; the per-fold
loss is the mean squared error between the held-out ΦF rows and the held-out
ΦP rows times the bottleneck, where the bottleneck is fitted on the training
rows only (agreeing inputs on the training rows give the same fitted
bottleneck); and the reported aggregate per rank is the mean of the `F`
per-fold losses together with their dispersion (the variance, whose square
root is the reported standard deviation). -/
theorem crossValidation_spec (p f n F : ℕ) (hF : 0 < F)
    (P Fm P2 Fm2 : ℕ → ℕ → ℚ)
    (fit : List (ℕ → ℚ) → List (ℕ → ℚ) → (ℕ → ℕ → ℚ)) :
    (∀ r, r < n → ∃! i, i < F ∧ r ∈ foldTestIdx n F i) ∧
    (∀ i, cvFoldLoss p f n F P Fm fit i
      = listSum ((foldTestIdx n F i).map fun t => natSum f fun j =>
          (Fm t j - natSum p fun c => P t c *
            fit (gatherRows P (foldTrainIdx n F i))
              (gatherRows Fm (foldTrainIdx n F i)) c j) ^ 2)
        / (((foldTestIdx n F i).length * f : ℕ) : ℚ)) ∧
    (∀ i, (∀ t ∈ foldTrainIdx n F i, P t = P2 t) →
      (∀ t ∈ foldTrainIdx n F i, Fm t = Fm2 t) →
      fit (gatherRows P (foldTrainIdx n F i))
          (gatherRows Fm (foldTrainIdx n F i))
        = fit (gatherRows P2 (foldTrainIdx n F i))
          (gatherRows Fm2 (foldTrainIdx n F i))) ∧
    (cvLosses p f n F P Fm fit).length = F ∧
    cvMean (cvLosses p f n F P Fm fit)
      = listSum (cvLosses p f n F P Fm fit) / (F : ℚ) ∧
    cvVar (cvLosses p f n F P Fm fit)
      = listSum ((cvLosses p f n F P Fm fit).map fun x =>
          (x - cvMean (cvLosses p f n F P Fm fit)) ^ 2) / (F : ℚ) := by
  have hlen : (cvLosses p f n F P Fm fit).length = F := by
    simp [cvLosses]
  refine ⟨?_, fun i => rfl, ?_, hlen, ?_, ?_⟩
  · intro r hr
    obtain ⟨i, hi, hle, hlt⟩ := foldTest_cover n F hF r hr
    refine ⟨i, ⟨hi, (mem_foldTestIdx n F i r).mpr ⟨hr, hle, hlt⟩⟩, ?_⟩
    rintro i2 ⟨hi2, hmem2⟩
    obtain ⟨_, hle2, hlt2⟩ := (mem_foldTestIdx n F i2 r).mp hmem2
    exact foldTest_unique n F r i2 i ⟨hle2, hlt2⟩ ⟨hle, hlt⟩
  · intro i hP hFm
    have e1 : gatherRows P (foldTrainIdx n F i)
        = gatherRows P2 (foldTrainIdx n F i) :=
      List.map_congr_left hP
    have e2 : gatherRows Fm (foldTrainIdx n F i)
        = gatherRows Fm2 (foldTrainIdx n F i) :=
      List.map_congr_left hFm
    rw [e1, e2]
  · rw [cvMean, hlen]
  · rw [cvVar, hlen]

/-- Witness for C9 at a concrete configuration: 3 rows, 2 folds, all-ones
1-dimensional features, the zero-map fit. -/
theorem crossValidation_spec_witness :
    (∀ r, r < 3 → ∃! i, i < 2 ∧ r ∈ foldTestIdx 3 2 i) ∧
    (∀ i, cvFoldLoss 1 1 3 2 (fun _ _ => 1) (fun _ _ => 1)
        (fun _ _ => fun _ _ => 0) i
      = listSum ((foldTestIdx 3 2 i).map fun _ => natSum 1 fun _ =>
          ((1 : ℚ) - natSum 1 fun _ => (1 : ℚ) * (0 : ℚ)) ^ 2)
        / (((foldTestIdx 3 2 i).length * 1 : ℕ) : ℚ)) ∧
    (∀ i : ℕ,
      (∀ t ∈ foldTrainIdx 3 2 i, (fun _ : ℕ => (1 : ℚ)) = fun _ : ℕ => (1 : ℚ)) →
      (∀ t ∈ foldTrainIdx 3 2 i, (fun _ : ℕ => (1 : ℚ)) = fun _ : ℕ => (1 : ℚ)) →
      (fun _ _ : ℕ => (0 : ℚ)) = fun _ _ : ℕ => (0 : ℚ)) ∧
    (cvLosses 1 1 3 2 (fun _ _ => 1) (fun _ _ => 1)
      (fun _ _ => fun _ _ => 0)).length = 2 ∧
    cvMean (cvLosses 1 1 3 2 (fun _ _ => 1) (fun _ _ => 1)
        (fun _ _ => fun _ _ => 0))
      = listSum (cvLosses 1 1 3 2 (fun _ _ => 1) (fun _ _ => 1)
          (fun _ _ => fun _ _ => 0)) / ((2 : ℕ) : ℚ) ∧
    cvVar (cvLosses 1 1 3 2 (fun _ _ => 1) (fun _ _ => 1)
        (fun _ _ => fun _ _ => 0))
      = listSum ((cvLosses 1 1 3 2 (fun _ _ => 1) (fun _ _ => 1)
          (fun _ _ => fun _ _ => 0)).map fun x =>
            (x - cvMean (cvLosses 1 1 3 2 (fun _ _ => 1) (fun _ _ => 1)
              (fun _ _ => fun _ _ => 0))) ^ 2) / ((2 : ℕ) : ℚ) := by
  exact crossValidation_spec 1 1 3 2 (by decide) (fun _ _ => 1) (fun _ _ => 1)
    (fun _ _ => 1) (fun _ _ => 1) (fun _ _ => fun _ _ => 0)

end CrossValidationThms
